import Mathlib

/-!
Verification of `src/sagemaker/utilities/tarfile.py`.

Paths are modelled as lists of characters (`PathStr`), matching Python's
view of a path as a character string.  The POSIX path functions the source
imports (`os.path.join`, `abspath`, `realpath`, `normpath`, `dirname`) are
translated below.  The filesystem visible to `realpath` is modelled as a
finite map from absolute paths to symbolic-link targets (`FS`); symlink
resolution is fueled, with enough fuel that resolution never bails out on a
link-free walk — the bail-out case corresponds to the library's
symlink-loop cutoff.  The current working directory is an explicit
parameter `cwd` (Python's `os.getcwd()`).
-/

namespace SgTar

abbrev PathStr := List Char

def SEP : Char := '/'

/-- Python `str.split('/')`: split a character string on the separator,
keeping empty pieces (so `"".split` is `[""]` and `"/".split` is
`["", ""]`). -/
def splitSep : List Char → List PathStr
  | [] => [[]]
  | c :: cs => if c = SEP then [] :: splitSep cs else consHead c (splitSep cs)
where
  consHead (c : Char) : List PathStr → List PathStr
    | [] => [[c]]
    | h :: t => (c :: h) :: t

/-- Python `'/'.join(comps)`. -/
def joinComps : List PathStr → PathStr
  | [] => []
  | [c] => c
  | c :: rest => c ++ SEP :: joinComps rest

/-- Python `posixpath.isabs`. -/
def isabs (p : PathStr) : Bool := p.take 1 = [SEP]

/-- Python `posixpath.join(a, b)`: `b` when `b` is absolute, otherwise `a`
and `b` glued with a separator unless `a` is empty or already ends in
one. -/
def joinpath (a b : PathStr) : PathStr :=
  if isabs b then b
  else if a = [] ∨ a.getLast? = some SEP then a ++ b
  else a ++ SEP :: b

/-- The number of leading slashes `posixpath.normpath` preserves: one,
or two for the POSIX `//`-rooted special case. -/
def initialSlashes (p : PathStr) : Nat :=
  if p.take 1 = [SEP] then
    if p.take 2 = [SEP, SEP] ∧ p.take 3 ≠ [SEP, SEP, SEP] then 2 else 1
  else 0

/-- The component loop of `posixpath.normpath`: drop empty and `.`
components, let `..` pop the previous component (kept literally at the
front of a relative path, dropped at the root of an absolute one).  The
accumulator holds the output components in reverse. -/
def normAux (isl : Nat) : List PathStr → List PathStr → List PathStr
  | acc, [] => acc.reverse
  | acc, c :: rest =>
    if c = [] ∨ c = ['.'] then normAux isl acc rest
    else if c ≠ ['.', '.'] then normAux isl (c :: acc) rest
    else if acc = [] then
      if isl = 0 then normAux isl [c] rest else normAux isl [] rest
    else if acc.headI = ['.', '.'] then normAux isl (c :: acc) rest
    else normAux isl acc.tail rest

/-- Python `posixpath.normpath`. -/
def normpath (p : PathStr) : PathStr :=
  if p = [] then ['.']
  else
    let isl := initialSlashes p
    let comps := normAux isl [] (splitSep p)
    let out := List.replicate isl SEP ++ joinComps comps
    if out = [] then ['.'] else out

/-- Python `posixpath.abspath` with the working directory explicit. -/
def abspath (cwd p : PathStr) : PathStr :=
  if isabs p then normpath p else normpath (joinpath cwd p)

/-- The filesystem snapshot `realpath` consults: a finite set of symbolic
links, keyed by the absolute path of the link. -/
structure FS where
  links : List (PathStr × PathStr)
deriving DecidableEq

def FS.readlink (fs : FS) (p : PathStr) : Option PathStr :=
  (fs.links.find? (fun e => decide (e.1 = p))).map (fun e => e.2)

def emptyFS : FS := ⟨[]⟩

/-- Rebuild an absolute path from a reversed component accumulator. -/
def toAbs (accRev : List PathStr) : PathStr := SEP :: joinComps accRev.reverse

/-- The component walk of `posixpath.realpath` (`_joinrealpath`) on an
absolute path: empty and `.` components are skipped, `..` steps to the
parent of the resolved part, and a component that is a symbolic link
restarts the walk at the link target.  Fuel bounds the number of steps;
the input fuel below is generous enough that the bail-out (which returns
the remaining components unresolved, as the library does when it detects
a symlink loop) is only reached on link cycles. -/
def resolveA (fs : FS) : Nat → List PathStr → List PathStr → List PathStr
  | 0, acc, rest => rest.reverse ++ acc
  | _ + 1, acc, [] => acc
  | fuel + 1, acc, n :: rest =>
    if n = [] ∨ n = ['.'] then resolveA fs fuel acc rest
    else if n = ['.', '.'] then resolveA fs fuel acc.tail rest
    else
      match FS.readlink fs (toAbs (n :: acc)) with
      | none => resolveA fs fuel (n :: acc) rest
      | some tgt =>
        if isabs tgt then resolveA fs fuel [] (splitSep tgt ++ rest)
        else resolveA fs fuel acc (splitSep tgt ++ rest)

def resolveFuel (fs : FS) (l : List PathStr) : Nat :=
  (l.length + 1 + (fs.links.map (fun e => (splitSep e.2).length + 1)).sum)
    * (fs.links.length + 1)

/-- Python `posixpath.realpath` on an absolute path: walk the components
resolving links, then re-normalize (`realpath` returns
`abspath` of the resolved string). -/
def realpathM (fs : FS) (p : PathStr) : PathStr :=
  normpath (toAbs (resolveA fs (resolveFuel fs (splitSep p)) [] (splitSep p)))

/-- Python `posixpath.dirname` helper: strip trailing separators. -/
def dropTrailingSep (p : PathStr) : PathStr :=
  (p.reverse.dropWhile (fun c => c = SEP)).reverse

def allSep (p : PathStr) : Bool := p.all (fun c => c = SEP)

/-- Python `posixpath.dirname`. -/
def dirname (p : PathStr) : PathStr :=
  match p.reverse.findIdx? (fun c => c = SEP) with
  | none => []
  | some k =>
    let head := p.take (p.length - k)
    if head ≠ [] ∧ ¬ (allSep head = true) then dropTrailingSep head else head

/-- Source `_get_resolved_path`: `normpath(realpath(abspath(path)))`. -/
def _get_resolved_path (fs : FS) (cwd : PathStr) (path : PathStr) : PathStr :=
  normpath (realpathM fs (abspath cwd path))

/-- Source `_is_bad_path`: the joined path's canonical form must start
with `base` (`joinpath` ignores `base` if `path` is absolute). -/
def _is_bad_path (fs : FS) (cwd : PathStr) (path base : PathStr) : Bool :=
  ! (List.isPrefixOf base (_get_resolved_path fs cwd (joinpath base path)))

/-- The entry kinds `tarfile.TarInfo` distinguishes that matter here. -/
inductive TarKind
  | reg
  | dir
  | sym
  | lnk
  | other
deriving DecidableEq

/-- One archive entry as read during extraction (`tarfile.TarInfo`). -/
structure TarInfo where
  name : PathStr
  linkname : PathStr
  kind : TarKind
deriving DecidableEq

def TarInfo.issym (i : TarInfo) : Bool := decide (i.kind = TarKind.sym)

def TarInfo.islnk (i : TarInfo) : Bool := decide (i.kind = TarKind.lnk)

/-- Source `_is_bad_link`: the link target is checked against
`tip = _get_resolved_path(joinpath(base, dirname(info.name)))`, the
resolved directory containing the link itself. -/
def _is_bad_link (fs : FS) (cwd : PathStr) (info : TarInfo) (base : PathStr) : Bool :=
  let tip := _get_resolved_path fs cwd (joinpath base (dirname info.name))
  _is_bad_path fs cwd info.linkname tip

/-- The logger calls made by `_get_safe_members` when it blocks an entry. -/
inductive LogEvent
  | illegalPath (name : PathStr)
  | blockedSymlink (name linkname : PathStr)
  | blockedHardlink (name linkname : PathStr)
deriving DecidableEq

/-- The per-entry branch of the `_get_safe_members` loop: `none` means the
entry is yielded, `some e` means it is dropped and `e` is logged. -/
def memberDecision (fs : FS) (cwd : PathStr) (base : PathStr) (i : TarInfo) :
    Option LogEvent :=
  if _is_bad_path fs cwd i.name base then some (LogEvent.illegalPath i.name)
  else if i.issym && _is_bad_link fs cwd i base then
    some (LogEvent.blockedSymlink i.name i.linkname)
  else if i.islnk && _is_bad_link fs cwd i base then
    some (LogEvent.blockedHardlink i.name i.linkname)
  else none

/-- The `_get_safe_members` loop over the member list, collecting the
yielded entries and the logged messages in order. -/
def safeMembersAux (fs : FS) (cwd : PathStr) (base : PathStr) :
    List TarInfo → List TarInfo × List LogEvent
  | [] => ([], [])
  | m :: ms =>
    let r := safeMembersAux fs cwd base ms
    match memberDecision fs cwd base m with
    | none => (m :: r.1, r.2)
    | some e => (r.1, e :: r.2)

/-- Source `_get_safe_members`: note the base of every containment check is
`_get_resolved_path(".")` — the resolved current working directory. -/
def _get_safe_members (fs : FS) (cwd : PathStr) (members : List TarInfo) :
    List TarInfo × List LogEvent :=
  safeMembersAux fs cwd (_get_resolved_path fs cwd ['.']) members

/-- The environment probed by the source: which external commands exist
(`_command_exists`), the tar dialect (`_is_bsd_tar`), whether the Python
`tarfile` module exposes `data_filter`, and the process state
(`os.getcwd()` and the filesystem snapshot). -/
structure Env where
  hasTarCommand : Bool
  hasPigzCommand : Bool
  hasDataFilter : Bool
  isBsdTar : Bool
  cwd : PathStr
  fs : FS

/-- What an extraction call does, once the strategy branch is taken. -/
inductive ExtractAction
  | external (command : String)
  | builtinData (extractPath : PathStr)
  | builtinSafe (extractPath : PathStr) (yielded : List TarInfo) (logs : List LogEvent)
deriving DecidableEq

/-- Source `custom_extractall_tarfile`: use the library `data` filter when
the module has one, otherwise extract only the members `_get_safe_members`
yields. -/
def custom_extractall_tarfile (env : Env) (members : List TarInfo)
    (extract_path : PathStr) : ExtractAction :=
  if env.hasDataFilter then ExtractAction.builtinData extract_path
  else
    let r := _get_safe_members env.fs env.cwd members
    ExtractAction.builtinSafe extract_path r.1 r.2

/-- The result of one child process (`subprocess.run` with
`capture_output=True`). -/
structure ProcResult where
  returncode : Int
  stdout : String
  stderr : String
deriving DecidableEq

/-- `subprocess.CalledProcessError`, carrying the captured output. -/
structure CalledProcessError where
  returncode : Int
  stdout : String
  stderr : String
deriving DecidableEq

/-- Modelled from the spec: the process runner (§6) executes the command,
blocks, captures stdout/stderr, and with `check=True` propagates a fatal
error carrying the captured diagnostics on a non-zero exit. -/
def subprocessRunCheck (r : ProcResult) : Except CalledProcessError Unit :=
  if r.returncode = 0 then Except.ok ()
  else Except.error ⟨r.returncode, r.stdout, r.stderr⟩

/-- Source `extract_tar_gz`: external `tar` (piped through `pigz` when
present) when available, otherwise the in-process fallback.  The archive's
member list and the process outcome are explicit parameters. -/
def extract_tar_gz (env : Env) (archive_path destination_path : PathStr)
    (members : List TarInfo) (proc : ProcResult) :
    Except CalledProcessError ExtractAction :=
  if env.hasTarCommand then
    let cmd :=
      if env.hasPigzCommand then
        "pigz -dc " ++ String.mk archive_path ++ " | tar xf - -C "
          ++ String.mk destination_path
      else
        "tar -xzf " ++ String.mk archive_path ++ " -C " ++ String.mk destination_path
    (subprocessRunCheck proc).map (fun _ => ExtractAction.external cmd)
  else Except.ok (custom_extractall_tarfile env members destination_path)

/-- Modelled from the spec: Strategy B materializes a yielded entry under
`destinationPath` at its stored name; this is the on-disk path that entry
resolves to. -/
def materializedPath (fs : FS) (cwd dest name : PathStr) : PathStr :=
  _get_resolved_path fs cwd (joinpath dest name)

/-- The characters Python `re.escape` escapes (Python ≥ 3.7). -/
def reSpecialChars : List Char :=
  ['(', ')', '[', ']', '\x7b', '\x7d', '?', '*', '+', '-', '|', '^', '$',
   '\\', '.', '&', '~', '#', ' ', '\t', '\n', '\r', '\x0b', '\x0c']

/-- Python `re.escape`. -/
def reEscape (p : PathStr) : PathStr :=
  (p.map (fun c => if reSpecialChars.contains c then ['\\', c] else [c])).flatten

/-- Source `FileToCompress`: one (source path, optional rename) request. -/
structure FileToCompress where
  file_path : PathStr
  arcname : Option PathStr
deriving DecidableEq

def FileToCompress.has_transform (f : FileToCompress) : Bool := f.arcname.isSome

/-- Source `FileToCompress.get_transform`: builds the rename directive for
the external tool.  An `arcname` equal to the path separator is first
rewritten to the empty string — a mutation of the object, returned here as
the second component. -/
def FileToCompress.get_transform (env : Env) (f : FileToCompress) :
    String × FileToCompress :=
  match f.arcname with
  | none => ("", f)
  | some a0 =>
    let a := if a0 = [SEP] then ([] : PathStr) else a0
    let f' : FileToCompress := ⟨f.file_path, some a⟩
    if env.isBsdTar then
      ("-s \"/^" ++ String.mk (reEscape f.file_path) ++ "/"
         ++ String.mk (reEscape a) ++ "/\"", f')
    else
      ("--transform \"s|^" ++ String.mk (reEscape f.file_path) ++ "|"
         ++ String.mk (reEscape a) ++ "|\"", f')

/-- The list comprehension
`[file.get_transform() for file in files if file.has_transform()]`:
the directive strings in order, and the file objects as they stand after
the call (`get_transform` mutates an `arcname` equal to the separator). -/
def runGetTransforms (env : Env) :
    List FileToCompress → List String × List FileToCompress
  | [] => ([], [])
  | f :: fsr =>
    let r := runGetTransforms env fsr
    if f.has_transform then
      let t := f.get_transform env
      (t.1 :: r.1, t.2 :: r.2)
    else (r.1, f :: r.2)

/-- What an archive-creation call does, once the strategy branch is taken;
`filesAfter` is the state of the caller's `FileToCompress` objects after
the call. -/
inductive CompressAction
  | external (command : String) (filesAfter : List FileToCompress)
  | builtin (adds : List (PathStr × Option PathStr)) (filesAfter : List FileToCompress)
deriving DecidableEq

def CompressAction.filesAfter : CompressAction → List FileToCompress
  | CompressAction.external _ fs => fs
  | CompressAction.builtin _ fs => fs

/-- Source `compress_files_to_tar_gz`: external `tar` (with `pigz` when
present) when available, else `tarfile.open(..., "w:gz").add` per file.
The process outcome for the external invocation is an explicit
parameter. -/
def compress_files_to_tar_gz (env : Env) (archive_path : PathStr)
    (files : List FileToCompress) (proc : ProcResult) :
    Except CalledProcessError CompressAction :=
  if env.hasTarCommand then
    let r := runGetTransforms env files
    let transforms := String.intercalate " " r.1
    let fileList := String.intercalate " " (files.map (fun f => String.mk f.file_path))
    let compressCommand :=
      if env.hasPigzCommand then "-c --use-compress-program=pigz -f" else "-czf"
    let cmd := "tar " ++ compressCommand ++ " " ++ String.mk archive_path ++ " "
      ++ transforms ++ " " ++ fileList
    (subprocessRunCheck proc).map (fun _ => CompressAction.external cmd r.2)
  else
    Except.ok (CompressAction.builtin (files.map (fun f => (f.file_path, f.arcname))) files)

/-- Modelled from the spec (§6 wire format, §8 property 7): archive member
names are stored relative to the archive root — leading path separators
are not stored. -/
def storeNorm (p : PathStr) : PathStr := p.dropWhile (fun c => c = SEP)

/-- The replacement component of the rename directive `get_transform`
builds (source lines 21–27): the `arcname`, with the bare path separator
normalized to the empty string. -/
def transformReplacement (f : FileToCompress) : Option PathStr :=
  f.arcname.map (fun a => if a = [SEP] then ([] : PathStr) else a)

/-- Modelled from the spec (§4.3 Strategy A): the external tool stores a
member whose original path extends `sourcePath` under the directive
replacement followed by the remainder; with no directive the original path
is kept. -/
def storedNameA (f : FileToCompress) (orig : PathStr) : PathStr :=
  match transformReplacement f with
  | none => storeNorm orig
  | some r =>
    if List.isPrefixOf f.file_path orig then
      storeNorm (r ++ orig.drop f.file_path.length)
    else storeNorm orig

/-- Modelled from the spec (§4.3 Strategy B): the in-process archiver
stores `sourcePath` (and the entries below it) under `archiveName` when
present, else under `sourcePath` itself. -/
def storedNameB (f : FileToCompress) (orig : PathStr) : PathStr :=
  match f.arcname with
  | none => storeNorm orig
  | some a =>
    if List.isPrefixOf f.file_path orig then
      storeNorm (a ++ orig.drop f.file_path.length)
    else storeNorm orig

/-- The rename semantics as the spec sentence states them (the spec-side
definition for the refinement comparison): no `archiveName` keeps the
original path; an `archiveName` equal to the path separator places the
entry at the archive root (empty prefix); other renames are outside the
sentence. -/
def renameSpecSem (f : FileToCompress) (orig : PathStr) : Option PathStr :=
  match f.arcname with
  | none => some (storeNorm orig)
  | some a =>
    if a = [SEP] then some (storeNorm (orig.drop f.file_path.length)) else none

/-!
Proof-layer machinery: the canonical-component view of an absolute path.
`cleanRev acc l` processes components `l` against a reversed accumulator:
empty and `.` components are skipped and `..` pops, exactly as both
`normpath` (on an absolute path) and the link-free `realpath` walk do.
-/

def cleanRev : List PathStr → List PathStr → List PathStr
  | acc, [] => acc
  | acc, c :: cs =>
    if c = [] ∨ c = ['.'] then cleanRev acc cs
    else if c = ['.', '.'] then cleanRev acc.tail cs
    else cleanRev (c :: acc) cs

/-- A component that survives normalization: nonempty, not `.`, not `..`. -/
def isCleanComp (c : PathStr) : Prop := c ≠ [] ∧ c ≠ ['.'] ∧ c ≠ ['.', '.']

instance (c : PathStr) : Decidable (isCleanComp c) := by
  unfold isCleanComp
  infer_instance

/-- The segment-boundary canonical form of an absolute, link-free path. -/
def canonOf (q : PathStr) : PathStr := toAbs (cleanRev [] (splitSep q))

/-- A path in canonical form: a fixed point of `canonOf`.  These are
exactly the outputs `_get_resolved_path` produces on a link-free
filesystem. -/
def IsCanonical (q : PathStr) : Prop := canonOf q = q

instance (q : PathStr) : Decidable (IsCanonical q) := by
  unfold IsCanonical
  infer_instance

/-- A relative candidate path with no `..` segments (so no leading
separator and nothing that can climb out of the base). -/
def RelNoClimb (p : PathStr) : Prop :=
  isabs p = false ∧ ∀ c ∈ splitSep p, c ≠ ['.', '.']

instance (p : PathStr) : Decidable (RelNoClimb p) := by
  unfold RelNoClimb
  infer_instance

/-! Helper lemmas. -/

theorem isPrefixOf_true (a b : PathStr) : List.isPrefixOf a b = true ↔ a <+: b :=
  List.isPrefixOf_iff_prefix

theorem consHead_ne_nil (c : Char) (l : List PathStr) : splitSep.consHead c l ≠ [] := by
  cases l <;> simp [splitSep.consHead]

theorem splitSep_ne_nil (p : List Char) : splitSep p ≠ [] := by
  cases p with
  | nil => simp [splitSep]
  | cons c cs =>
    by_cases h : c = SEP
    · simp [splitSep, h]
    · rw [splitSep, if_neg h]
      exact consHead_ne_nil c (splitSep cs)

theorem sep_not_mem_splitSep (p : List Char) : ∀ x ∈ splitSep p, SEP ∉ x := by
  induction p with
  | nil =>
    intro x hx
    simp [splitSep] at hx
    subst hx
    simp
  | cons c cs ih =>
    intro x hx
    by_cases h : c = SEP
    · rw [splitSep, if_pos h] at hx
      rcases List.mem_cons.mp hx with h1 | h2
      · subst h1; simp
      · exact ih x h2
    · rw [splitSep, if_neg h] at hx
      rcases hsp : splitSep cs with _ | ⟨hd, tl⟩
      · exact absurd hsp (splitSep_ne_nil cs)
      · rw [hsp] at hx
        simp only [splitSep.consHead] at hx
        rcases List.mem_cons.mp hx with h1 | h2
        · subst h1
          intro hmem
          rcases List.mem_cons.mp hmem with hc | hh
          · exact h hc.symm
          · exact ih hd (by rw [hsp]; exact List.mem_cons_self hd tl) hh
        · exact ih x (by rw [hsp]; exact List.mem_cons_of_mem hd h2)

theorem splitSep_sepfree (seg : PathStr) (h : SEP ∉ seg) : splitSep seg = [seg] := by
  induction seg with
  | nil => rfl
  | cons c cs ih =>
    have hc : c ≠ SEP := fun hc => h (hc ▸ List.mem_cons_self c cs)
    rw [splitSep, if_neg hc, ih (fun hm => h (List.mem_cons_of_mem c hm))]
    rfl

theorem splitSep_sep_cons (t : List Char) : splitSep (SEP :: t) = [] :: splitSep t := by
  rw [splitSep, if_pos rfl]

theorem splitSep_seg_append (seg : PathStr) (t : List Char) (h : SEP ∉ seg) :
    splitSep (seg ++ SEP :: t) = seg :: splitSep t := by
  induction seg with
  | nil => rw [List.nil_append, splitSep_sep_cons]
  | cons c cs ih =>
    have hc : c ≠ SEP := fun hc => h (hc ▸ List.mem_cons_self c cs)
    rw [List.cons_append, splitSep, if_neg hc,
      ih (fun hm => h (List.mem_cons_of_mem c hm))]
    rfl

theorem splitSep_joinComps (l : List PathStr) (hne : l ≠ [])
    (hsf : ∀ c ∈ l, SEP ∉ c) : splitSep (joinComps l) = l := by
  induction l with
  | nil => exact absurd rfl hne
  | cons c rest ih =>
    cases rest with
    | nil => exact splitSep_sepfree c (hsf c (List.mem_cons_self c []))
    | cons d t =>
      show splitSep (c ++ SEP :: joinComps (d :: t)) = c :: d :: t
      rw [splitSep_seg_append c _ (hsf c (List.mem_cons_self c (d :: t))),
        ih (by simp) (fun x hx => hsf x (List.mem_cons_of_mem c hx))]

theorem splitSep_joinComps_append (l : List PathStr) (t : List Char) (hne : l ≠ [])
    (hsf : ∀ c ∈ l, SEP ∉ c) :
    splitSep (joinComps l ++ SEP :: t) = l ++ splitSep t := by
  induction l with
  | nil => exact absurd rfl hne
  | cons c rest ih =>
    cases rest with
    | nil =>
      show splitSep (c ++ SEP :: t) = c :: splitSep t
      exact splitSep_seg_append c t (hsf c (List.mem_cons_self c []))
    | cons d t2 =>
      show splitSep ((c ++ SEP :: joinComps (d :: t2)) ++ SEP :: t) = _
      rw [List.append_assoc, List.cons_append,
        splitSep_seg_append c _ (hsf c (List.mem_cons_self c (d :: t2))),
        ih (by simp) (fun x hx => hsf x (List.mem_cons_of_mem c hx))]
      rfl

theorem joinComps_append (l₁ l₂ : List PathStr) (h1 : l₁ ≠ []) (h2 : l₂ ≠ []) :
    joinComps (l₁ ++ l₂) = joinComps l₁ ++ SEP :: joinComps l₂ := by
  induction l₁ with
  | nil => exact absurd rfl h1
  | cons c rest ih =>
    cases rest with
    | nil =>
      cases l₂ with
      | nil => exact absurd rfl h2
      | cons d t => rfl
    | cons d t =>
      show joinComps (c :: ((d :: t) ++ l₂)) = (c ++ SEP :: joinComps (d :: t)) ++ _
      have : (d :: t) ++ l₂ = (d :: (t ++ l₂)) := rfl
      rw [this]
      show c ++ SEP :: joinComps (d :: (t ++ l₂)) = _
      have hrw : joinComps (d :: (t ++ l₂)) = joinComps (d :: t) ++ SEP :: joinComps l₂ := by
        have := ih (by simp)
        simpa using this
      rw [hrw]
      simp

theorem cleanRev_append (l₁ l₂ : List PathStr) (acc : List PathStr) :
    cleanRev acc (l₁ ++ l₂) = cleanRev (cleanRev acc l₁) l₂ := by
  induction l₁ generalizing acc with
  | nil => rfl
  | cons c cs ih =>
    rw [List.cons_append]
    by_cases h1 : c = [] ∨ c = ['.']
    · rw [cleanRev, if_pos h1, cleanRev, if_pos h1]
      exact ih acc
    · by_cases h2 : c = ['.', '.']
      · rw [cleanRev, if_neg h1, if_pos h2, cleanRev, if_neg h1, if_pos h2]
        exact ih acc.tail
      · rw [cleanRev, if_neg h1, if_neg h2, cleanRev, if_neg h1, if_neg h2]
        exact ih (c :: acc)

theorem cleanRev_clean (l : List PathStr) (h : ∀ c ∈ l, isCleanComp c)
    (acc : List PathStr) : cleanRev acc l = l.reverse ++ acc := by
  induction l generalizing acc with
  | nil => rfl
  | cons c cs ih =>
    obtain ⟨hne, hdot, hdd⟩ := h c (List.mem_cons_self c cs)
    rw [cleanRev, if_neg (by tauto), if_neg hdd,
      ih (fun x hx => h x (List.mem_cons_of_mem c hx)) (c :: acc)]
    simp

theorem cleanRev_inv (l : List PathStr) (hl : ∀ c ∈ l, SEP ∉ c)
    (acc : List PathStr) (hacc : ∀ c ∈ acc, isCleanComp c ∧ SEP ∉ c) :
    ∀ c ∈ cleanRev acc l, isCleanComp c ∧ SEP ∉ c := by
  induction l generalizing acc with
  | nil => exact hacc
  | cons c cs ih =>
    by_cases h1 : c = [] ∨ c = ['.']
    · rw [cleanRev, if_pos h1]
      exact ih (fun x hx => hl x (List.mem_cons_of_mem c hx)) acc hacc
    · by_cases h2 : c = ['.', '.']
      · rw [cleanRev, if_neg h1, if_pos h2]
        exact ih (fun x hx => hl x (List.mem_cons_of_mem c hx)) acc.tail
          (fun x hx => hacc x (List.mem_of_mem_tail hx))
      · rw [cleanRev, if_neg h1, if_neg h2]
        refine ih (fun x hx => hl x (List.mem_cons_of_mem c hx)) (c :: acc) ?_
        intro x hx
        rcases List.mem_cons.mp hx with h3 | h3
        · subst h3
          exact ⟨⟨fun he => h1 (Or.inl he), fun he => h1 (Or.inr he), h2⟩,
            hl x (List.mem_cons_self x cs)⟩
        · exact hacc x h3

theorem cleanRev_noClimb (l : List PathStr) (h : ∀ c ∈ l, c ≠ ['.', '.'])
    (acc : List PathStr) :
    cleanRev acc l
      = (l.filter (fun c => decide (¬(c = [] ∨ c = ['.'])))).reverse ++ acc := by
  induction l generalizing acc with
  | nil => rfl
  | cons c cs ih =>
    by_cases h1 : c = [] ∨ c = ['.']
    · rw [cleanRev, if_pos h1, ih (fun x hx => h x (List.mem_cons_of_mem c hx)) acc]
      rw [List.filter_cons_of_neg (by rcases h1 with h1 | h1 <;> subst h1 <;> decide)]
    · rw [cleanRev, if_neg h1, if_neg (h c (List.mem_cons_self c cs)),
        ih (fun x hx => h x (List.mem_cons_of_mem c hx)) (c :: acc)]
      rw [List.filter_cons_of_pos (by simpa using h1)]
      simp

theorem normAux_eq_cleanRev (isl : Nat) (hisl : isl ≠ 0) (l : List PathStr)
    (acc : List PathStr) (hacc : ∀ c ∈ acc, c ≠ ['.', '.']) :
    normAux isl acc l = (cleanRev acc l).reverse := by
  induction l generalizing acc with
  | nil => rfl
  | cons c cs ih =>
    by_cases h1 : c = [] ∨ c = ['.']
    · rw [normAux, if_pos h1, cleanRev, if_pos h1]
      exact ih acc hacc
    · by_cases h2 : c = ['.', '.']
      · rw [normAux, if_neg h1, if_neg (by simpa using h2), cleanRev, if_neg h1, if_pos h2]
        cases acc with
        | nil =>
          rw [if_pos rfl, if_neg hisl]
          exact ih [] (by simp)
        | cons a as =>
          rw [if_neg (by simp : ¬(a :: as = [])),
            if_neg (by simpa using hacc a (List.mem_cons_self a as))]
          exact ih as (fun x hx => hacc x (List.mem_cons_of_mem a hx))
      · rw [normAux, if_neg h1, if_pos (by simpa using h2), cleanRev, if_neg h1, if_neg h2]
        refine ih (c :: acc) ?_
        intro x hx
        rcases List.mem_cons.mp hx with h3 | h3
        · subst h3; exact h2
        · exact hacc x h3

theorem readlink_empty (p : PathStr) : FS.readlink emptyFS p = none := rfl

theorem resolveA_empty (fuel : Nat) (acc l : List PathStr) (h : l.length ≤ fuel) :
    resolveA emptyFS fuel acc l = cleanRev acc l := by
  induction l generalizing fuel acc with
  | nil =>
    cases fuel with
    | zero => simp [resolveA, cleanRev]
    | succ k => rfl
  | cons c cs ih =>
    cases fuel with
    | zero => exact absurd h (by simp)
    | succ k =>
      have hk : cs.length ≤ k := by
        have := h
        simp only [List.length_cons] at this
        omega
      by_cases h1 : c = [] ∨ c = ['.']
      · rw [resolveA, if_pos h1, cleanRev, if_pos h1]
        exact ih k acc hk
      · by_cases h2 : c = ['.', '.']
        · rw [resolveA, if_neg h1, if_pos h2, cleanRev, if_neg h1, if_pos h2]
          exact ih k acc.tail hk
        · rw [resolveA, if_neg h1, if_neg h2, readlink_empty, cleanRev, if_neg h1, if_neg h2]
          exact ih k (c :: acc) hk

theorem resolveFuel_ge (fs : FS) (l : List PathStr) : l.length ≤ resolveFuel fs l := by
  unfold resolveFuel
  have h1 : l.length
      ≤ l.length + 1 + (fs.links.map (fun e => (splitSep e.2).length + 1)).sum := by
    omega
  calc l.length
      ≤ l.length + 1 + (fs.links.map (fun e => (splitSep e.2).length + 1)).sum := h1
    _ = (l.length + 1 + (fs.links.map (fun e => (splitSep e.2).length + 1)).sum) * 1 :=
        (Nat.mul_one _).symm
    _ ≤ _ := Nat.mul_le_mul (le_refl _) (by omega)

theorem isabs_iff (q : PathStr) : isabs q = true ↔ q.take 1 = [SEP] := by
  simp [isabs]

theorem initialSlashes_ne_zero (q : PathStr) (h : isabs q = true) :
    initialSlashes q ≠ 0 := by
  unfold initialSlashes
  rw [if_pos ((isabs_iff q).mp h)]
  split <;> simp

theorem initialSlashes_cases (q : PathStr) (h : isabs q = true) :
    initialSlashes q = 1 ∨ initialSlashes q = 2 := by
  unfold initialSlashes
  rw [if_pos ((isabs_iff q).mp h)]
  split
  · right; rfl
  · left; rfl

theorem abs_ne_nil (q : PathStr) (h : isabs q = true) : q ≠ [] := by
  intro he
  subst he
  simp [isabs] at h

theorem normpath_abs (q : PathStr) (h : isabs q = true) :
    normpath q = List.replicate (initialSlashes q) SEP
      ++ joinComps (cleanRev [] (splitSep q)).reverse := by
  have hq : q ≠ [] := abs_ne_nil q h
  have hisl := initialSlashes_ne_zero q h
  simp only [normpath, if_neg hq]
  rw [normAux_eq_cleanRev _ hisl _ [] (by simp)]
  rw [if_neg ?_]
  intro he
  rcases List.append_eq_nil.mp he with ⟨h1, _⟩
  exact hisl (by simpa using h1)

theorem cleanRev_splitSep_repSep (isl : Nat) (hisl : isl = 1 ∨ isl = 2)
    (comps : List PathStr) (hclean : ∀ c ∈ comps, isCleanComp c ∧ SEP ∉ c) :
    cleanRev [] (splitSep (List.replicate isl SEP ++ joinComps comps))
      = comps.reverse := by
  rcases eq_or_ne comps [] with hc | hc
  · subst hc
    rcases hisl with h | h <;> subst h <;> decide
  · have hsp : splitSep (joinComps comps) = comps :=
      splitSep_joinComps comps hc (fun c hcm => (hclean c hcm).2)
    have hstep : cleanRev [] (splitSep (joinComps comps)) = comps.reverse := by
      rw [hsp, cleanRev_clean comps (fun c hcm => (hclean c hcm).1) []]
      simp
    rcases hisl with h | h <;> subst h
    · show cleanRev [] (splitSep (SEP :: ([] ++ joinComps comps))) = comps.reverse
      rw [List.nil_append, splitSep_sep_cons]
      rw [show cleanRev [] ([] :: splitSep (joinComps comps))
          = cleanRev [] (splitSep (joinComps comps)) from by
        rw [cleanRev, if_pos (Or.inl rfl)]]
      exact hstep
    · show cleanRev [] (splitSep (SEP :: (SEP :: ([] ++ joinComps comps))))
        = comps.reverse
      rw [List.nil_append, splitSep_sep_cons, splitSep_sep_cons]
      rw [show cleanRev [] ([] :: [] :: splitSep (joinComps comps))
          = cleanRev [] (splitSep (joinComps comps)) from by
        rw [cleanRev, if_pos (Or.inl rfl), cleanRev, if_pos (Or.inl rfl)]]
      exact hstep

theorem cleanRev_splitSep_canon (q : PathStr) :
    ∀ c ∈ (cleanRev [] (splitSep q)).reverse, isCleanComp c ∧ SEP ∉ c :=
  fun c hc => cleanRev_inv (splitSep q) (sep_not_mem_splitSep q) [] (by simp) c
    (List.mem_reverse.mp hc)

theorem cleanRev_splitSep_normpath (q : PathStr) (h : isabs q = true) :
    cleanRev [] (splitSep (normpath q)) = cleanRev [] (splitSep q) := by
  rw [normpath_abs q h,
    cleanRev_splitSep_repSep (initialSlashes q) (initialSlashes_cases q h) _
      (cleanRev_splitSep_canon q),
    List.reverse_reverse]

theorem joinComps_cons (c : PathStr) (rest : List PathStr) :
    ∃ s, joinComps (c :: rest) = c ++ s := by
  cases rest with
  | nil => exact ⟨[], by simp [joinComps]⟩
  | cons d t => exact ⟨SEP :: joinComps (d :: t), rfl⟩

theorem normpath_sep_join (comps : List PathStr)
    (hc : ∀ c ∈ comps, isCleanComp c ∧ SEP ∉ c) :
    normpath (SEP :: joinComps comps) = SEP :: joinComps comps := by
  rcases eq_or_ne comps [] with hcn | hcn
  · subst hcn; decide
  · have hne : (SEP :: joinComps comps : PathStr) ≠ [] := by simp
    have hisl : initialSlashes (SEP :: joinComps comps) = 1 := by
      have hcond : ¬(List.take 2 (SEP :: joinComps comps) = [SEP, SEP]
          ∧ List.take 3 (SEP :: joinComps comps) ≠ [SEP, SEP, SEP]) := by
        rintro ⟨h2, -⟩
        obtain ⟨c, rest, rfl⟩ := List.exists_cons_of_ne_nil hcn
        obtain ⟨⟨hne0, -, -⟩, hsf⟩ := hc c (List.mem_cons_self c rest)
        obtain ⟨ch, ctl, rfl⟩ := List.exists_cons_of_ne_nil hne0
        have hch : ch ≠ SEP := fun he => hsf (he ▸ List.mem_cons_self ch ctl)
        obtain ⟨s, hs⟩ := joinComps_cons (ch :: ctl) rest
        rw [hs] at h2
        simp [List.take] at h2
        exact hch h2
      unfold initialSlashes
      rw [if_pos (by simp), if_neg hcond]
    have hsp : splitSep (joinComps comps) = comps :=
      splitSep_joinComps comps hcn (fun c hcm => (hc c hcm).2)
    simp only [normpath, if_neg hne, hisl]
    rw [normAux_eq_cleanRev _ (by omega) _ [] (by simp), splitSep_sep_cons, hsp]
    rw [show cleanRev [] ([] :: comps) = cleanRev [] comps from by
      rw [cleanRev, if_pos (Or.inl rfl)]]
    rw [cleanRev_clean comps (fun c hcm => (hc c hcm).1) []]
    simp only [List.append_nil, List.reverse_reverse]
    rw [if_neg (by simp)]
    rfl

theorem canonOf_eq (q : PathStr) :
    canonOf q = SEP :: joinComps (cleanRev [] (splitSep q)).reverse := rfl

theorem isabs_canonOf (q : PathStr) : isabs (canonOf q) = true := by
  rw [canonOf_eq]
  simp [isabs, List.take]

theorem normpath_canonOf (q : PathStr) : normpath (canonOf q) = canonOf q := by
  rw [canonOf_eq]
  exact normpath_sep_join _ (cleanRev_splitSep_canon q)

theorem getRes_empty_abs (cwd q : PathStr) (h : isabs q = true) :
    _get_resolved_path emptyFS cwd q = canonOf q := by
  have habs : abspath cwd q = normpath q := by
    simp only [abspath, if_pos h]
  unfold _get_resolved_path
  rw [habs]
  unfold realpathM
  rw [resolveA_empty _ _ _ (resolveFuel_ge emptyFS _)]
  rw [cleanRev_splitSep_normpath q h]
  show normpath (normpath (canonOf q)) = canonOf q
  rw [normpath_canonOf, normpath_canonOf]

theorem joinComps_ne_nil (comps : List PathStr) (h : comps ≠ [])
    (h0 : ∀ c ∈ comps, c ≠ []) : joinComps comps ≠ [] := by
  cases comps with
  | nil => exact absurd rfl h
  | cons c rest =>
    cases rest with
    | nil => exact h0 c (List.mem_cons_self c [])
    | cons d t =>
      show c ++ SEP :: joinComps (d :: t) ≠ []
      simp

theorem joinComps_getLast_ne_sep (comps : List PathStr)
    (h : ∀ c ∈ comps, isCleanComp c ∧ SEP ∉ c) (hne : comps ≠ []) :
    ¬ ((joinComps comps).getLast? = some SEP) := by
  induction comps with
  | nil => exact absurd rfl hne
  | cons c rest ih =>
    cases rest with
    | nil =>
      obtain ⟨⟨h0, -, -⟩, hsf⟩ := h c (List.mem_cons_self c [])
      intro hlast
      exact hsf (List.mem_of_mem_getLast? (by simp [joinComps] at hlast; simp [hlast]))
    | cons d t =>
      intro hlast
      have hjoin : joinComps (c :: d :: t) = c ++ SEP :: joinComps (d :: t) := rfl
      rw [hjoin, List.getLast?_append] at hlast
      have hdt : joinComps (d :: t) ≠ [] :=
        joinComps_ne_nil (d :: t) (by simp)
          (fun x hx => (h x (List.mem_cons_of_mem c hx)).1.1)
      obtain ⟨y, ys, hys⟩ := List.exists_cons_of_ne_nil hdt
      have hlast2 : (joinComps (d :: t)).getLast? = some SEP := by
        cases hg : (joinComps (d :: t)).getLast? with
        | none => exact absurd (List.getLast?_eq_none_iff.mp hg) hdt
        | some z =>
          have hsz : (SEP :: joinComps (d :: t) : PathStr).getLast? = some z := by
            rw [hys] at hg ⊢
            rw [List.getLast?_cons_cons]
            exact hg
          rw [hsz] at hlast
          simp only [Option.or_some] at hlast
          exact hlast
      exact ih (fun x hx => h x (List.mem_cons_of_mem c hx)) (by simp) hlast2

theorem base_getLast_not_sep (comps : List PathStr)
    (h : ∀ c ∈ comps, isCleanComp c ∧ SEP ∉ c) (hne : comps ≠ []) :
    ¬ ((SEP :: joinComps comps : PathStr).getLast? = some SEP) := by
  have hjn : joinComps comps ≠ [] :=
    joinComps_ne_nil comps hne (fun c hc => (h c hc).1.1)
  obtain ⟨y, ys, hys⟩ := List.exists_cons_of_ne_nil hjn
  rw [hys, List.getLast?_cons_cons, ← hys]
  exact joinComps_getLast_ne_sep comps h hne

theorem isabs_sep_cons (l : List Char) : isabs (SEP :: l) = true := by
  simp [isabs, List.take]

theorem safe_of_relNoClimb (cwd p base : PathStr) (hbase : IsCanonical base)
    (hp : RelNoClimb p) : _is_bad_path emptyFS cwd p base = false := by
  obtain ⟨hrel, hnc⟩ := hp
  have hbase' : base = SEP :: joinComps (cleanRev [] (splitSep base)).reverse :=
    hbase.symm
  have hclean := cleanRev_splitSep_canon base
  have hnp : ¬ (isabs p = true) := by simp [hrel]
  rcases eq_or_ne ((cleanRev [] (splitSep base)).reverse) [] with hcn | hcn
  · -- base is the root "/"
    have hb : base = [SEP] := by rw [hbase', hcn]; rfl
    have hjoin : joinpath base p = SEP :: p := by
      unfold joinpath
      rw [if_neg hnp, if_pos (Or.inr (by rw [hb]; rfl))]
      rw [hb]
      rfl
    unfold _is_bad_path
    rw [hjoin, getRes_empty_abs cwd _ (isabs_sep_cons p), hb]
    rw [Bool.not_eq_false', isPrefixOf_true]
    rw [canonOf_eq]
    exact (List.cons_prefix_cons).mpr ⟨rfl, List.nil_prefix⟩
  · -- base has at least one component
    set comps := (cleanRev [] (splitSep base)).reverse with hcompsdef
    have hjoin : joinpath base p = SEP :: (joinComps comps ++ SEP :: p) := by
      unfold joinpath
      rw [if_neg hnp, if_neg ?_]
      · rw [hbase']
        rfl
      rintro (he | he)
      · rw [hbase'] at he; simp at he
      · rw [hbase'] at he
        exact base_getLast_not_sep comps hclean hcn he
    unfold _is_bad_path
    rw [hjoin, getRes_empty_abs cwd _ (isabs_sep_cons _)]
    rw [Bool.not_eq_false', isPrefixOf_true]
    -- compute the canonical form of the join
    have hsp : splitSep (SEP :: (joinComps comps ++ SEP :: p))
        = [] :: (comps ++ splitSep p) := by
      rw [splitSep_sep_cons,
        splitSep_joinComps_append comps p hcn (fun c hc => (hclean c hc).2)]
    have hcr : cleanRev [] (splitSep (SEP :: (joinComps comps ++ SEP :: p)))
        = cleanRev comps.reverse (splitSep p) := by
      rw [hsp]
      rw [show cleanRev [] ([] :: (comps ++ splitSep p))
          = cleanRev [] (comps ++ splitSep p) from by
        rw [cleanRev, if_pos (Or.inl rfl)]]
      rw [cleanRev_append, cleanRev_clean comps (fun c hc => (hclean c hc).1) []]
      rw [List.append_nil]
    rw [canonOf_eq, hcr,
      cleanRev_noClimb (splitSep p) hnc comps.reverse]
    set pf := (splitSep p).filter (fun c => decide (¬(c = [] ∨ c = ['.']))) with hpf
    rw [List.reverse_append, List.reverse_reverse, List.reverse_reverse]
    rw [hbase']
    rcases eq_or_ne pf [] with hpfn | hpfn
    · rw [hpfn, List.append_nil]
    · rw [joinComps_append comps pf hcn hpfn]
      exact (List.cons_prefix_cons).mpr ⟨rfl, List.prefix_append _ _⟩

theorem safe_of_eq_base (cwd base : PathStr) (hbase : IsCanonical base) :
    _is_bad_path emptyFS cwd base base = false := by
  have habs : isabs base = true := by
    rw [← hbase]
    exact isabs_canonOf base
  have hjoin : joinpath base base = base := by
    unfold joinpath
    rw [if_pos habs]
  unfold _is_bad_path
  rw [hjoin, getRes_empty_abs cwd base habs, hbase]
  rw [Bool.not_eq_false', isPrefixOf_true]

theorem safeMembersAux_append (fs : FS) (cwd base : PathStr)
    (xs ys : List TarInfo) :
    safeMembersAux fs cwd base (xs ++ ys)
      = ((safeMembersAux fs cwd base xs).1 ++ (safeMembersAux fs cwd base ys).1,
         (safeMembersAux fs cwd base xs).2 ++ (safeMembersAux fs cwd base ys).2) := by
  induction xs with
  | nil => simp [safeMembersAux]
  | cons x xs ih =>
    simp only [List.cons_append, safeMembersAux]
    cases memberDecision fs cwd base x <;> simp [ih]

/-! The claims. -/

/-- Claim C4: the path-safety check deems a candidate safe exactly when the
canonical form of `base` joined with the candidate (the join discarding
`base` for an absolute candidate, then made absolute, symlink-resolved and
normalized) has `base`'s canonical string as a prefix; in particular, on a
link-free snapshot, a relative candidate with no `..` segments and no
leading separator is safe, and a candidate equal to `base` is safe. -/
theorem C4_path_check (fs : FS) (cwd p base : PathStr) :
    (_is_bad_path fs cwd p base = false ↔
       base <+: _get_resolved_path fs cwd (joinpath base p))
    ∧ (isabs p = true → joinpath base p = p)
    ∧ (fs = emptyFS → IsCanonical base → RelNoClimb p →
        _is_bad_path fs cwd p base = false)
    ∧ (fs = emptyFS → IsCanonical base →
        _is_bad_path fs cwd base base = false) := by
  refine ⟨?_, ?_, ?_, ?_⟩
  · rw [_is_bad_path, Bool.not_eq_false', isPrefixOf_true]
  · intro h
    unfold joinpath
    rw [if_pos h]
  · intro hfs hbase hp
    subst hfs
    exact safe_of_relNoClimb cwd p base hbase hp
  · intro hfs hbase
    subst hfs
    exact safe_of_eq_base cwd base hbase

/-- Witness for C4 at base `"/x/y"`, candidate `"a/b"`, empty snapshot:
the hypotheses hold and the candidate (and the base itself) are reported
safe. -/
theorem C4_path_check_witness :
    IsCanonical ("/x/y".data) ∧ RelNoClimb ("a/b".data)
    ∧ _is_bad_path emptyFS [SEP] "a/b".data "/x/y".data = false
    ∧ _is_bad_path emptyFS [SEP] "/x/y".data "/x/y".data = false :=
  ⟨by decide, by decide,
    (C4_path_check emptyFS [SEP] "a/b".data "/x/y".data).2.2.1 rfl (by decide)
      (by decide),
    (C4_path_check emptyFS [SEP] "a/b".data "/x/y".data).2.2.2 rfl (by decide)⟩

/-- Claim C3 counterexample: for base `"/x/y"` and candidate `"../yy"` —
which canonically resolves to the sibling `"/x/yy"`, not under the base on
a segment boundary — the check reports the candidate as SAFE
(`_is_bad_path` is `false`), refuting the claim that it is reported
unsafe. -/
theorem C3_segment_boundary_cex :
    _is_bad_path emptyFS [SEP] "../yy".data "/x/y".data = false
    ∧ _get_resolved_path emptyFS [SEP] (joinpath "/x/y".data "../yy".data)
        = "/x/yy".data
    ∧ List.isPrefixOf ("/x/y".data ++ [SEP]) "/x/yy".data = false := by
  decide

/-- Claim C3 (amended): containment is decided by a raw string prefix on
the canonical strings: any candidate whose canonical resolution extends
the base's canonical string byte-wise — even past a non-segment boundary,
as with a sibling directory `"/x/yy"` under base `"/x/y"` — is reported
safe. -/
theorem C3_raw_prefix_amended (fs : FS) (cwd base p suffix : PathStr)
    (h : _get_resolved_path fs cwd (joinpath base p) = base ++ suffix) :
    _is_bad_path fs cwd p base = false := by
  rw [_is_bad_path, h, Bool.not_eq_false', isPrefixOf_true]
  exact List.prefix_append base suffix

/-- Witness for the amended C3 at the sibling input: `"../yy"` under
`"/x/y"` resolves to `"/x/y" ++ "y"` and is reported safe. -/
theorem C3_raw_prefix_amended_witness :
    _get_resolved_path emptyFS [SEP] (joinpath "/x/y".data "../yy".data)
        = "/x/y".data ++ "y".data
    ∧ _is_bad_path emptyFS [SEP] "../yy".data "/x/y".data = false :=
  ⟨by decide,
    C3_raw_prefix_amended emptyFS [SEP] "/x/y".data "../yy".data "y".data
      (by decide)⟩

/-- Claim C1, evaluated at the failing input: with working directory
`"/a"` and extraction destination `"/dest"`, the entry named
`"../a/evil"` is yielded by the safety filter (its containment is checked
against the resolved working directory, not the destination), yet the
path it materializes to, `"/a/evil"`, does not lie under the canonical
destination.  The invariant the claim states is violated. -/
theorem C1_invariant_violated_at_input :
    (_get_safe_members emptyFS "/a".data
        [⟨"../a/evil".data, [], TarKind.reg⟩]).1
      = [⟨"../a/evil".data, [], TarKind.reg⟩]
    ∧ _get_resolved_path emptyFS "/a".data "/dest".data = "/dest".data
    ∧ materializedPath emptyFS "/a".data "/dest".data "../a/evil".data
        = "/a/evil".data
    ∧ List.isPrefixOf "/dest".data "/a/evil".data = false := by
  decide

/-- Claim C2 counterexample: the base the filter actually uses is the
resolved `"."` — the working directory — and with working directory
`"/a"` and destination `"/dest"` these differ; the filter then yields an
entry that does not materialize under the destination. -/
theorem C2_base_is_cwd_cex :
    _get_resolved_path emptyFS "/a".data ['.'] = "/a".data
    ∧ _get_resolved_path emptyFS "/a".data "/dest".data = "/dest".data
    ∧ ("/a".data : PathStr) ≠ "/dest".data
    ∧ (⟨"../a/evil".data, [], TarKind.reg⟩ : TarInfo) ∈
        (_get_safe_members emptyFS "/a".data
          [⟨"../a/evil".data, [], TarKind.reg⟩]).1
    ∧ List.isPrefixOf "/dest".data
        (materializedPath emptyFS "/a".data "/dest".data "../a/evil".data)
      = false := by
  decide

/-- Claim C2 (amended): in fallback extraction the filter's containment
checks use as base the canonicalized `"."` (the process's current working
directory), not the destination; the entries the filter yields are exactly
the ones materialized under `destinationPath`. -/
theorem C2_filter_base_amended (env : Env) (archive dest : PathStr)
    (members : List TarInfo) (proc : ProcResult)
    (h1 : env.hasTarCommand = false) (h2 : env.hasDataFilter = false) :
    extract_tar_gz env archive dest members proc
      = Except.ok (ExtractAction.builtinSafe dest
          (safeMembersAux env.fs env.cwd
            (_get_resolved_path env.fs env.cwd ['.']) members).1
          (safeMembersAux env.fs env.cwd
            (_get_resolved_path env.fs env.cwd ['.']) members).2) := by
  simp [extract_tar_gz, h1, custom_extractall_tarfile, h2, _get_safe_members]

/-- Witness for the amended C2 on a concrete fallback environment. -/
theorem C2_filter_base_amended_witness :
    extract_tar_gz ⟨false, false, false, false, "/a".data, emptyFS⟩
        "m.tar.gz".data "/dest".data [⟨"ok.txt".data, [], TarKind.reg⟩]
        ⟨0, "", ""⟩
      = Except.ok (ExtractAction.builtinSafe "/dest".data
          (safeMembersAux emptyFS "/a".data
            (_get_resolved_path emptyFS "/a".data ['.'])
            [⟨"ok.txt".data, [], TarKind.reg⟩]).1
          (safeMembersAux emptyFS "/a".data
            (_get_resolved_path emptyFS "/a".data ['.'])
            [⟨"ok.txt".data, [], TarKind.reg⟩]).2) :=
  C2_filter_base_amended ⟨false, false, false, false, "/a".data, emptyFS⟩
    "m.tar.gz".data "/dest".data [⟨"ok.txt".data, [], TarKind.reg⟩]
    ⟨0, "", ""⟩ rfl rfl

/-- Claim C5: for a symbolic-link or hard-link entry whose own name passes
the path check, the filter checks the link target against
`tip = canonicalize(join(base, dirname(name)))` — the resolved directory
containing the link — and on failure drops the entry, logging a warning
that carries both the name and the link target. -/
theorem C5_link_check (fs : FS) (cwd base : PathStr) (i : TarInfo)
    (ms : List TarInfo)
    (hk : i.kind = TarKind.sym ∨ i.kind = TarKind.lnk)
    (hname : _is_bad_path fs cwd i.name base = false) :
    _is_bad_link fs cwd i base
      = _is_bad_path fs cwd i.linkname
          (_get_resolved_path fs cwd (joinpath base (dirname i.name)))
    ∧ (_is_bad_link fs cwd i base = true →
        memberDecision fs cwd base i
          = some (if i.kind = TarKind.sym
              then LogEvent.blockedSymlink i.name i.linkname
              else LogEvent.blockedHardlink i.name i.linkname)
        ∧ safeMembersAux fs cwd base (i :: ms)
            = ((safeMembersAux fs cwd base ms).1,
               (if i.kind = TarKind.sym
                then LogEvent.blockedSymlink i.name i.linkname
                else LogEvent.blockedHardlink i.name i.linkname)
                 :: (safeMembersAux fs cwd base ms).2))
    ∧ (_is_bad_link fs cwd i base = false →
        memberDecision fs cwd base i = none) := by
  refine ⟨rfl, ?_, ?_⟩
  · intro hbad
    have hdec : memberDecision fs cwd base i
        = some (if i.kind = TarKind.sym
            then LogEvent.blockedSymlink i.name i.linkname
            else LogEvent.blockedHardlink i.name i.linkname) := by
      rcases hk with hk | hk
      · simp [memberDecision, hname, TarInfo.issym, TarInfo.islnk, hk, hbad]
      · simp [memberDecision, hname, TarInfo.issym, TarInfo.islnk, hk, hbad]
    refine ⟨hdec, ?_⟩
    rw [safeMembersAux]
    rw [hdec]
  · intro hgood
    rcases hk with hk | hk
    · simp [memberDecision, hname, TarInfo.issym, TarInfo.islnk, hk, hgood]
    · simp [memberDecision, hname, TarInfo.issym, TarInfo.islnk, hk, hgood]

/-- Witness for C5: a symlink stored at `"a/link"` pointing to
`"../../outside"` under base `"/base"`: the name passes, the link check
fails against the tip `"/base/a"`, and the entry is dropped with the
symlink warning. -/
theorem C5_link_check_witness :
    ((⟨"a/link".data, "../../outside".data, TarKind.sym⟩ : TarInfo).kind
        = TarKind.sym
      ∨ (⟨"a/link".data, "../../outside".data, TarKind.sym⟩ : TarInfo).kind
        = TarKind.lnk)
    ∧ _is_bad_path emptyFS [SEP]
        (⟨"a/link".data, "../../outside".data, TarKind.sym⟩ : TarInfo).name
        "/base".data = false
    ∧ _is_bad_link emptyFS [SEP]
        ⟨"a/link".data, "../../outside".data, TarKind.sym⟩ "/base".data = true
    ∧ memberDecision emptyFS [SEP] "/base".data
        ⟨"a/link".data, "../../outside".data, TarKind.sym⟩
      = some (if (⟨"a/link".data, "../../outside".data, TarKind.sym⟩
            : TarInfo).kind = TarKind.sym
          then LogEvent.blockedSymlink "a/link".data "../../outside".data
          else LogEvent.blockedHardlink "a/link".data "../../outside".data) :=
  ⟨Or.inl rfl, by decide, by decide,
    ((C5_link_check emptyFS [SEP] "/base".data
        ⟨"a/link".data, "../../outside".data, TarKind.sym⟩ []
        (Or.inl rfl) (by decide)).2.1 (by decide)).1⟩

/-- Claim C6: the rename semantics coincide between the external-tool
strategy and the in-process fallback for the cases the spec names — no
`archiveName` keeps the original stored path, and an `archiveName` equal
to the path separator stores the entry at the archive root — and both
agree with the spec-side rename semantics. -/
theorem C6_rename_equivalence (f : FileToCompress) (suffix : PathStr)
    (h : f.arcname = none ∨ f.arcname = some [SEP]) :
    storedNameA f (f.file_path ++ suffix) = storedNameB f (f.file_path ++ suffix)
    ∧ renameSpecSem f (f.file_path ++ suffix)
        = some (storedNameA f (f.file_path ++ suffix)) := by
  have hpre : List.isPrefixOf f.file_path (f.file_path ++ suffix) = true :=
    (isPrefixOf_true _ _).mpr (List.prefix_append _ _)
  rcases h with h | h
  · simp [storedNameA, storedNameB, renameSpecSem, transformReplacement, h]
  · have hdrop : (f.file_path ++ suffix).drop f.file_path.length = suffix :=
      List.drop_left _ _
    have hsn : storeNorm (SEP :: suffix) = storeNorm suffix := by
      simp [storeNorm]
    simp [storedNameA, storedNameB, renameSpecSem, transformReplacement, h,
      hpre, hdrop, hsn]

/-- Witness for C6 in both named cases: no rename, and rename to the
separator. -/
theorem C6_rename_equivalence_witness :
    ((⟨"dir".data, none⟩ : FileToCompress).arcname = none
      ∨ (⟨"dir".data, none⟩ : FileToCompress).arcname = some [SEP])
    ∧ storedNameA ⟨"dir".data, none⟩ ("dir".data ++ "/a.txt".data)
        = storedNameB ⟨"dir".data, none⟩ ("dir".data ++ "/a.txt".data)
    ∧ renameSpecSem ⟨"dir".data, some [SEP]⟩ ("dir".data ++ "/a.txt".data)
        = some (storedNameA ⟨"dir".data, some [SEP]⟩
            ("dir".data ++ "/a.txt".data)) :=
  ⟨Or.inl rfl,
    (C6_rename_equivalence ⟨"dir".data, none⟩ "/a.txt".data (Or.inl rfl)).1,
    (C6_rename_equivalence ⟨"dir".data, some [SEP]⟩ "/a.txt".data
      (Or.inr rfl)).2⟩

/-- Claim C7: when creation takes the external-tool path and the process
exits non-zero, the call fails with an error carrying the captured
diagnostic output, and it never returns success after a non-zero exit. -/
theorem C7_nonzero_exit_fails (env : Env) (ap : PathStr)
    (files : List FileToCompress) (proc : ProcResult)
    (h : env.hasTarCommand = true) :
    (proc.returncode ≠ 0 →
      compress_files_to_tar_gz env ap files proc
        = Except.error ⟨proc.returncode, proc.stdout, proc.stderr⟩)
    ∧ ∀ a, compress_files_to_tar_gz env ap files proc = Except.ok a →
        proc.returncode = 0 := by
  constructor
  · intro hz
    simp [compress_files_to_tar_gz, h, subprocessRunCheck, hz, Except.map]
  · intro a ha
    by_contra hz
    simp [compress_files_to_tar_gz, h, subprocessRunCheck, hz, Except.map] at ha

/-- Witness for C7 at a concrete failing invocation. -/
theorem C7_nonzero_exit_fails_witness :
    ((⟨true, false, false, false, [SEP], emptyFS⟩ : Env).hasTarCommand = true)
    ∧ ((⟨1, "out", "boom"⟩ : ProcResult).returncode ≠ 0)
    ∧ compress_files_to_tar_gz ⟨true, false, false, false, [SEP], emptyFS⟩
        "out.tar.gz".data [] ⟨1, "out", "boom"⟩
      = Except.error ⟨1, "out", "boom"⟩ :=
  ⟨rfl, by decide,
    (C7_nonzero_exit_fails ⟨true, false, false, false, [SEP], emptyFS⟩
      "out.tar.gz".data [] ⟨1, "out", "boom"⟩ rfl).1 (by decide)⟩

/-- Claim C8: a blocked entry is not an error: it is logged and skipped,
the filter yields exactly the surviving entries around it, and the
fallback extraction call still returns success. -/
theorem C8_blocked_entry_skipped (fs : FS) (cwd : PathStr)
    (xs ys : List TarInfo) (m : TarInfo) (e : LogEvent)
    (hd : memberDecision fs cwd (_get_resolved_path fs cwd ['.']) m = some e) :
    (_get_safe_members fs cwd (xs ++ m :: ys)).1
      = (_get_safe_members fs cwd xs).1 ++ (_get_safe_members fs cwd ys).1
    ∧ (_get_safe_members fs cwd (xs ++ m :: ys)).2
      = (_get_safe_members fs cwd xs).2 ++ e :: (_get_safe_members fs cwd ys).2
    ∧ ∀ env archive dest proc, env.hasTarCommand = false →
        ∃ a, extract_tar_gz env archive dest (xs ++ m :: ys) proc
          = Except.ok a := by
  have hmid : safeMembersAux fs cwd (_get_resolved_path fs cwd ['.']) (m :: ys)
      = ((safeMembersAux fs cwd (_get_resolved_path fs cwd ['.']) ys).1,
         e :: (safeMembersAux fs cwd (_get_resolved_path fs cwd ['.']) ys).2) := by
    rw [safeMembersAux, hd]
  refine ⟨?_, ?_, ?_⟩
  · unfold _get_safe_members
    rw [safeMembersAux_append, hmid]
  · unfold _get_safe_members
    rw [safeMembersAux_append, hmid]
  · intro env archive dest proc henv
    exact ⟨custom_extractall_tarfile env (xs ++ m :: ys) dest,
      by simp [extract_tar_gz, henv]⟩

/-- Witness for C8: the illegal-path entry `"../esc"` between two good
entries is logged and skipped while the rest are yielded, and the
fallback call succeeds. -/
theorem C8_blocked_entry_skipped_witness :
    memberDecision emptyFS "/w".data
        (_get_resolved_path emptyFS "/w".data ['.'])
        ⟨"../esc".data, [], TarKind.reg⟩
      = some (LogEvent.illegalPath "../esc".data)
    ∧ (_get_safe_members emptyFS "/w".data
        ([⟨"a".data, [], TarKind.reg⟩] ++ ⟨"../esc".data, [], TarKind.reg⟩
          :: [⟨"b".data, [], TarKind.reg⟩])).1
      = (_get_safe_members emptyFS "/w".data [⟨"a".data, [], TarKind.reg⟩]).1
        ++ (_get_safe_members emptyFS "/w".data [⟨"b".data, [], TarKind.reg⟩]).1 :=
  ⟨by decide,
    (C8_blocked_entry_skipped emptyFS "/w".data
      [⟨"a".data, [], TarKind.reg⟩] [⟨"b".data, [], TarKind.reg⟩]
      ⟨"../esc".data, [], TarKind.reg⟩
      (LogEvent.illegalPath "../esc".data) (by decide)).1⟩

/-- Claim C9 counterexample: `createArchive` on the external-tool path
mutates an entry whose `archiveName` equals the path separator — after the
call the entry's `arcname` is the empty string, not the separator it was
passed with — refuting the claim that every entry's fields are
unchanged. -/
theorem C9_mutation_cex :
    (compress_files_to_tar_gz ⟨true, false, false, false, [SEP], emptyFS⟩
        "out.tar.gz".data [⟨"model".data, some [SEP]⟩]
        ⟨0, "", ""⟩).toOption.map CompressAction.filesAfter
      = some [⟨"model".data, some []⟩]
    ∧ (⟨"model".data, some ([] : PathStr)⟩ : FileToCompress)
        ≠ ⟨"model".data, some [SEP]⟩ := by
  decide

/-- Claim C9 (amended): `sourcePath` is never changed and `archiveName` is
unchanged, except that an entry whose `archiveName` equals the path
separator has it rewritten to the empty string while the rename directive
is computed on the external-tool path; the fallback path leaves every
entry untouched. -/
theorem C9_fields_amended (env : Env) (ap : PathStr)
    (files : List FileToCompress) (proc : ProcResult) :
    List.Forall₂ (fun f g => g.file_path = f.file_path ∧
        (g.arcname = f.arcname
          ∨ (f.arcname = some [SEP] ∧ g.arcname = some [])))
      files (runGetTransforms env files).2
    ∧ (env.hasTarCommand = false →
        compress_files_to_tar_gz env ap files proc
          = Except.ok (CompressAction.builtin
              (files.map (fun f => (f.file_path, f.arcname))) files)) := by
  constructor
  · induction files with
    | nil => exact List.Forall₂.nil
    | cons f fsr ih =>
      rw [runGetTransforms]
      by_cases hf : f.has_transform = true
      · rw [if_pos hf]
        rcases ha : f.arcname with - | a0
        · simp [FileToCompress.has_transform, ha] at hf
        · refine List.Forall₂.cons ?_ ih
          rcases eq_or_ne a0 [SEP] with hsep | hsep
          · subst hsep
            simp only [FileToCompress.get_transform, ha]
            split <;> exact ⟨rfl, Or.inr ⟨trivial, by simp⟩⟩
          · simp only [FileToCompress.get_transform, ha]
            split <;> exact ⟨rfl, Or.inl (by simp [hsep, ha])⟩
      · rw [if_neg hf]
        exact List.Forall₂.cons ⟨rfl, Or.inl rfl⟩ ih
  · intro h
    simp [compress_files_to_tar_gz, h]

/-- Witness for the amended C9: on the fallback path with one renamed and
one unrenamed entry, the builtin action records every entry unchanged. -/
theorem C9_fields_amended_witness :
    ((⟨false, false, false, false, [SEP], emptyFS⟩ : Env).hasTarCommand = false)
    ∧ compress_files_to_tar_gz ⟨false, false, false, false, [SEP], emptyFS⟩
        "out.tar.gz".data
        [⟨"a".data, some "r".data⟩, ⟨"b".data, none⟩] ⟨0, "", ""⟩
      = Except.ok (CompressAction.builtin
          [("a".data, some "r".data), ("b".data, none)]
          [⟨"a".data, some "r".data⟩, ⟨"b".data, none⟩]) :=
  ⟨rfl,
    (C9_fields_amended ⟨false, false, false, false, [SEP], emptyFS⟩
      "out.tar.gz".data [⟨"a".data, some "r".data⟩, ⟨"b".data, none⟩]
      ⟨0, "", ""⟩).2 rfl⟩

/-- Claim C10: when the `tarfile` module exposes `data_filter`, fallback
extraction delegates to the library's `data` filter — the action does not
depend on the member list at all, so the custom safe-member filter is
never consulted; the custom filter runs exactly when `data_filter` is
absent. -/
theorem C10_data_filter_dispatch (env : Env) (members ms2 : List TarInfo)
    (path : PathStr) :
    (env.hasDataFilter = true →
       custom_extractall_tarfile env members path
         = ExtractAction.builtinData path
       ∧ custom_extractall_tarfile env members path
         = custom_extractall_tarfile env ms2 path)
    ∧ (env.hasDataFilter = false →
       custom_extractall_tarfile env members path
         = ExtractAction.builtinSafe path
             (_get_safe_members env.fs env.cwd members).1
             (_get_safe_members env.fs env.cwd members).2) := by
  constructor
  · intro h
    constructor <;> simp [custom_extractall_tarfile, h]
  · intro h
    simp [custom_extractall_tarfile, h]

/-- Witness for C10 in both directions of the dispatch. -/
theorem C10_data_filter_dispatch_witness :
    custom_extractall_tarfile ⟨false, false, true, false, "/w".data, emptyFS⟩
        [⟨"../esc".data, [], TarKind.reg⟩] "/dest".data
      = ExtractAction.builtinData "/dest".data
    ∧ custom_extractall_tarfile ⟨false, false, false, false, "/w".data, emptyFS⟩
        [⟨"a".data, [], TarKind.reg⟩] "/dest".data
      = ExtractAction.builtinSafe "/dest".data
          (_get_safe_members emptyFS "/w".data [⟨"a".data, [], TarKind.reg⟩]).1
          (_get_safe_members emptyFS "/w".data [⟨"a".data, [], TarKind.reg⟩]).2 :=
  ⟨((C10_data_filter_dispatch ⟨false, false, true, false, "/w".data, emptyFS⟩
      [⟨"../esc".data, [], TarKind.reg⟩] [] "/dest".data).1 rfl).1,
    (C10_data_filter_dispatch ⟨false, false, false, false, "/w".data, emptyFS⟩
      [⟨"a".data, [], TarKind.reg⟩] [] "/dest".data).2 rfl⟩

end SgTar
